import Mathlib

/-!
Verification development for the RISWorkflow deep-embedded-clustering (DEC)
workflow.  The repository's notebook (`Workflow.ipynb`) configures and drives
the DEC core (soft-clustering head, target-distribution update, joint training
controller, batched inference) that lives in the imported `RISCluster`
package; where that package's code is not part of the repository snapshot, the
corresponding operations are modelled faithfully from the specification's own
description and marked as such in their doc comments.

All real-valued quantities are modelled over `ℚ` so that every definition is
executable and every property exact (the spec's "within floating-point
tolerance" becomes exact equality over `ℚ`).
-/

namespace RISWorkflow

/-! ## Soft-clustering head (claim C1) -/

/-- Modelled from the spec: squared Euclidean distance `‖z − μ‖²` between a
latent vector and a centroid (the `RISCluster.networks` clustering layer is
not in the repository snapshot). -/
def sqdist (z μ : List ℚ) : ℚ :=
  ((z.zip μ).map (fun p => (p.1 - p.2) ^ 2)).sum

/-- Modelled from the spec: unnormalized Student's-t similarity
`(1 + ‖z − μ‖² / α)^(−(α+1)/2)` with the fixed degrees-of-freedom constant
`α = 1` (the spec's conventional value), for which the exponent is `−1`. -/
def studentT (z μ : List ℚ) : ℚ :=
  1 / (1 + sqdist z μ / 1)

/-- Modelled from the spec: the soft-assignment row `q_i` for one latent
vector `z` against the centroid set, Student's-t similarities normalized
over the clusters. -/
def softAssign (z : List ℚ) (centroids : List (List ℚ)) : List ℚ :=
  let nums := centroids.map (fun μ => studentT z μ)
  nums.map (fun q => q / nums.sum)

lemma sqdist_nonneg (z μ : List ℚ) : 0 ≤ sqdist z μ := by
  apply List.sum_nonneg
  intro x hx
  rcases List.mem_map.mp hx with ⟨p, _, rfl⟩
  positivity

lemma studentT_pos (z μ : List ℚ) : 0 < studentT z μ := by
  have h := sqdist_nonneg z μ
  unfold studentT
  positivity

lemma sum_map_div (l : List ℚ) (s : ℚ) :
    (l.map (fun q => q / s)).sum = l.sum / s := by
  induction l with
  | nil => simp
  | cons a t ih => simp [ih, add_div]

/-- C1: for every latent vector and every centroid set with `K ≥ 1`
centroids, the soft-assignment row produced by the Student's-t kernel is a
probability vector of length `K`: every entry is non-negative and the entries
sum to exactly `1`. -/
theorem softAssign_isProbabilityVector (z : List ℚ) (centroids : List (List ℚ))
    (hK : 1 ≤ centroids.length) :
    (softAssign z centroids).length = centroids.length ∧
    (∀ q ∈ softAssign z centroids, 0 ≤ q) ∧
    (softAssign z centroids).sum = 1 := by
  have hpos : ∀ q ∈ centroids.map (fun μ => studentT z μ), 0 < q := by
    intro q hq
    rcases List.mem_map.mp hq with ⟨μ, _, rfl⟩
    exact studentT_pos z μ
  have hne : centroids.map (fun μ => studentT z μ) ≠ [] := by
    intro h
    have hlen : centroids.length = 0 := by
      simpa using congrArg List.length h
    omega
  have hsum : 0 < (centroids.map (fun μ => studentT z μ)).sum :=
    List.sum_pos _ hpos hne
  refine ⟨by simp [softAssign], ?_, ?_⟩
  · intro q hq
    rcases List.mem_map.mp hq with ⟨a, ha, rfl⟩
    exact div_nonneg (le_of_lt (hpos a ha)) (le_of_lt hsum)
  · show ((centroids.map (fun μ => studentT z μ)).map
      (fun q => q / (centroids.map (fun μ => studentT z μ)).sum)).sum = 1
    rw [sum_map_div]
    exact div_self (ne_of_gt hsum)

/-- C1 witness: a concrete batch — latent vector `[1, 2]` against two
centroids `[0, 0]` and `[1, 1]` — yields a probability vector. -/
theorem softAssign_isProbabilityVector_witness :
    1 ≤ ([[0, 0], [1, 1]] : List (List ℚ)).length ∧
    ((softAssign [1, 2] [[0, 0], [1, 1]]).length = 2 ∧
     (∀ q ∈ softAssign [1, 2] [[0, 0], [1, 1]], 0 ≤ q) ∧
     (softAssign [1, 2] [[0, 0], [1, 1]]).sum = 1) :=
  ⟨by decide, softAssign_isProbabilityVector [1, 2] [[0, 0], [1, 1]] (by decide)⟩

/-! ## Target-distribution sharpening (claim C2) -/

/-- Modelled from the spec: the per-cluster soft frequency
`f_k = Σ_i q_ik` over all rows of the soft assignment `Q` (the
`RISCluster.models` target-distribution code is not in the repository
snapshot). -/
def colSum (Q : List (List ℚ)) (k : Nat) : ℚ :=
  (Q.map (fun r => r.getD k 0)).sum

/-- Modelled from the spec: the unnormalized target weights
`q_ik² / f_k` for one sample's row of `Q`. -/
def targetWeights (Q : List (List ℚ)) (row : List ℚ) : List ℚ :=
  (List.range row.length).map (fun k => (row.getD k 0) ^ 2 / colSum Q k)

/-- Modelled from the spec: the target-distribution row
`p_ik = q_ik² / f_k`, normalized over `k`. -/
def targetRow (Q : List (List ℚ)) (row : List ℚ) : List ℚ :=
  (targetWeights Q row).map (fun x => x / (targetWeights Q row).sum)

lemma le_sum_of_mem {l : List ℚ} (hl : ∀ y ∈ l, 0 ≤ y) {x : ℚ} (hx : x ∈ l) :
    x ≤ l.sum := by
  induction l with
  | nil => cases hx
  | cons a t ih =>
    have ht : 0 ≤ t.sum :=
      List.sum_nonneg (fun y hy => hl y (List.mem_cons_of_mem a hy))
    rcases List.mem_cons.mp hx with rfl | hx'
    · simp only [List.sum_cons]; linarith
    · have ha : 0 ≤ a := hl a (List.mem_cons_self a t)
      have := ih (fun y hy => hl y (List.mem_cons_of_mem a hy)) hx'
      simp only [List.sum_cons]; linarith

lemma getD_nonneg_of_entries {r : List ℚ} (hr : ∀ q ∈ r, 0 ≤ q) (k : Nat) :
    0 ≤ r.getD k 0 := by
  by_cases hk : k < r.length
  · rw [List.getD_eq_getElem r 0 hk]
    exact hr _ (List.getElem_mem hk)
  · rw [List.getD_eq_default r 0 (Nat.le_of_not_lt hk)]

lemma colSum_nonneg {Q : List (List ℚ)}
    (hQ : ∀ r ∈ Q, ∀ q ∈ r, 0 ≤ q) (k : Nat) : 0 ≤ colSum Q k := by
  apply List.sum_nonneg
  intro x hx
  rcases List.mem_map.mp hx with ⟨r, hr, rfl⟩
  exact getD_nonneg_of_entries (hQ r hr) k

lemma targetWeights_getD {Q : List (List ℚ)} {row : List ℚ} {k : Nat}
    (hk : k < row.length) :
    (targetWeights Q row).getD k 0 = (row.getD k 0) ^ 2 / colSum Q k := by
  unfold targetWeights
  rw [List.getD_eq_getElem _ 0 (by simpa using hk), List.getElem_map]
  simp

lemma targetWeights_nonneg {Q : List (List ℚ)} {row : List ℚ}
    (hQ : ∀ r ∈ Q, ∀ q ∈ r, 0 ≤ q) :
    ∀ x ∈ targetWeights Q row, 0 ≤ x := by
  intro x hx
  rcases List.mem_map.mp hx with ⟨k, _, rfl⟩
  exact div_nonneg (by positivity) (colSum_nonneg hQ k)

lemma targetWeights_sum_pos {Q : List (List ℚ)} {row : List ℚ}
    (hrow : row ∈ Q) (hQ : ∀ r ∈ Q, ∀ q ∈ r, 0 ≤ q)
    {k : Nat} (hk : k < row.length) (hq : 0 < row.getD k 0) :
    0 < (targetWeights Q row).sum := by
  have hcs : 0 < colSum Q k := by
    have hmem : row.getD k 0 ∈ Q.map (fun r => r.getD k 0) :=
      List.mem_map.mpr ⟨row, hrow, rfl⟩
    have := le_sum_of_mem (l := Q.map (fun r => r.getD k 0))
      (fun y hy => by
        rcases List.mem_map.mp hy with ⟨r, hr, rfl⟩
        exact getD_nonneg_of_entries (hQ r hr) k) hmem
    calc (0 : ℚ) < row.getD k 0 := hq
    _ ≤ _ := this
  have hwk : 0 < (row.getD k 0) ^ 2 / colSum Q k := by positivity
  have hmemw : (row.getD k 0) ^ 2 / colSum Q k ∈ targetWeights Q row := by
    unfold targetWeights
    exact List.mem_map.mpr ⟨k, List.mem_range.mpr hk, rfl⟩
  calc (0 : ℚ) < (row.getD k 0) ^ 2 / colSum Q k := hwk
  _ ≤ _ := le_sum_of_mem (targetWeights_nonneg hQ) hmemw

lemma targetRow_getD {Q : List (List ℚ)} {row : List ℚ} {k : Nat}
    (hk : k < row.length) :
    (targetRow Q row).getD k 0 =
      ((row.getD k 0) ^ 2 / colSum Q k) / (targetWeights Q row).sum := by
  unfold targetRow
  have hlen : k < (targetWeights Q row).length := by
    unfold targetWeights; simpa using hk
  rw [List.getD_eq_getElem _ 0 (by simpa using hlen), List.getElem_map,
    ← List.getD_eq_getElem _ 0 hlen, targetWeights_getD hk]

/-- C2 (amended): for every soft assignment `Q` with non-negative entries in
which the given sample's row has at least one positive entry, the target row
is a probability vector (entries non-negative, summing to `1`); and the
sharpening is monotonic whenever all per-cluster soft frequencies `f_k` are
equal — in general a cluster with a larger `f_k` can lose the argmax, so
monotonicity does not hold unconditionally. -/
theorem targetRow_probability_and_equalFreq_monotone
    (Q : List (List ℚ)) (row : List ℚ)
    (hrow : row ∈ Q) (hQ : ∀ r ∈ Q, ∀ q ∈ r, 0 ≤ q)
    (k₀ : Nat) (hk₀ : k₀ < row.length) (hq₀ : 0 < row.getD k₀ 0) :
    (targetRow Q row).length = row.length ∧
    (∀ p ∈ targetRow Q row, 0 ≤ p) ∧
    (targetRow Q row).sum = 1 ∧
    (∀ c : ℚ, 0 < c → (∀ k < row.length, colSum Q k = c) →
      ∀ j k, j < row.length → k < row.length →
        row.getD j 0 ≤ row.getD k 0 →
        (targetRow Q row).getD j 0 ≤ (targetRow Q row).getD k 0) := by
  have hS : 0 < (targetWeights Q row).sum :=
    targetWeights_sum_pos hrow hQ hk₀ hq₀
  refine ⟨?_, ?_, ?_, ?_⟩
  · unfold targetRow targetWeights; simp
  · intro p hp
    rcases List.mem_map.mp hp with ⟨x, hx, rfl⟩
    exact div_nonneg (targetWeights_nonneg hQ x hx) (le_of_lt hS)
  · unfold targetRow
    rw [sum_map_div]
    exact div_self (ne_of_gt hS)
  · intro c hc hceq j k hj hk hjk
    rw [targetRow_getD hj, targetRow_getD hk, hceq j hj, hceq k hk]
    have hqj : 0 ≤ row.getD j 0 := getD_nonneg_of_entries (hQ row hrow) j
    have hsq : (row.getD j 0) ^ 2 ≤ (row.getD k 0) ^ 2 := by
      have := sq_le_sq' (by linarith) hjk
      simpa [sq] using this
    have h1 : (row.getD j 0) ^ 2 / c ≤ (row.getD k 0) ^ 2 / c := by gcongr
    gcongr

/-- C2 witness: a concrete two-sample, two-cluster soft assignment with
equal cluster frequencies — `Q = [[3/5, 2/5], [2/5, 3/5]]` — whose first
row's target is a probability vector with monotone sharpening. -/
theorem targetRow_probability_witness :
    ([3/5, 2/5] : List ℚ) ∈ ([[3/5, 2/5], [2/5, 3/5]] : List (List ℚ)) ∧
    (targetRow [[3/5, 2/5], [2/5, 3/5]] [3/5, 2/5]).sum = 1 := by
  refine ⟨List.mem_cons_self _ _, ?_⟩
  have h := targetRow_probability_and_equalFreq_monotone
    [[3/5, 2/5], [2/5, 3/5]] [3/5, 2/5]
    (List.mem_cons_self _ _)
    (by norm_num [List.forall_mem_cons])
    0 (by norm_num) (by norm_num [List.getD])
  exact h.2.2.1

/-- C2 counterexample: `Q = [[3/5, 2/5], [1, 0]]` is a legitimate soft
assignment (rows non-negative, each summing to `1`), yet for the first sample
cluster `0` has the strictly highest `q` while cluster `1` has the strictly
highest `p`: the frequency debiasing `f_k` demotes the popular cluster, so
sharpening is not monotonic as claimed. -/
theorem targetRow_monotone_counterexample :
    (∀ r ∈ ([[3/5, 2/5], [1, 0]] : List (List ℚ)), (∀ q ∈ r, 0 ≤ q) ∧ r.sum = 1) ∧
    (([3/5, 2/5] : List ℚ).getD 1 0 < ([3/5, 2/5] : List ℚ).getD 0 0) ∧
    (targetRow [[3/5, 2/5], [1, 0]] [3/5, 2/5]).getD 0 0 <
      (targetRow [[3/5, 2/5], [1, 0]] [3/5, 2/5]).getD 1 0 := by
  refine ⟨by norm_num [List.forall_mem_cons], by norm_num [List.getD], ?_⟩
  norm_num [targetRow, targetWeights, colSum, List.getD, List.range_succ]

/-! ## Joint fine-tuning controller (claim C3) -/

/-- Modelled from the spec: the joint training controller's state machine
phases `{AWAITING_TARGET, ACCUMULATING_GRADIENT, CONVERGED, FAILED}` (the
`RISCluster.models` training loop is not in the repository snapshot). -/
inductive Phase where
  | awaitingTarget
  | accumulatingGradient
  | converged
  | failed
deriving DecidableEq

/-- Modelled from the spec: the controller's observable state — current
phase, current epoch, whether final weights have been saved, and the label
assignments from the previous target update. -/
structure Ctrl where
  phase : Phase
  epoch : Nat
  finalSaved : Bool
  prevLabels : List Nat
deriving DecidableEq

/-- Modelled from the spec: the label-assignment delta — the fraction of
samples whose argmax label changed between two consecutive target updates. -/
def labelDelta (prev cur : List Nat) : ℚ :=
  (((prev.zip cur).countP (fun p => p.1 != p.2) : Nat) : ℚ) / (prev.length : ℚ)

/-- Modelled from the spec: the transition taken at a target-update boundary.
If the delta against the previous update's labels is below the tolerance the
controller transitions to `CONVERGED` and saves final weights; otherwise it
transitions back to `ACCUMULATING_GRADIENT`.  `CONVERGED` and `FAILED` are
terminal. -/
def targetUpdate (tol : ℚ) (cur : List Nat) (s : Ctrl) : Ctrl :=
  match s.phase with
  | Phase.converged => s
  | Phase.failed => s
  | _ =>
    if labelDelta s.prevLabels cur < tol then
      { s with phase := Phase.converged, finalSaved := true, prevLabels := cur }
    else
      { s with phase := Phase.accumulatingGradient, prevLabels := cur }

/-- Modelled from the spec: the controller applied to a whole sequence of
subsequent target updates. -/
def runUpdates (tol : ℚ) (s : Ctrl) (updates : List (List Nat)) : Ctrl :=
  updates.foldl (fun st cur => targetUpdate tol cur st) s

/-- Modelled from the spec: the stopping decision — the run stops when the
controller is in a terminal phase or the epoch budget is exhausted. -/
def shouldStop (budget : Nat) (s : Ctrl) : Bool :=
  s.phase == Phase.converged || s.phase == Phase.failed || budget ≤ s.epoch

lemma labelDelta_mem_unitInterval (prev cur : List Nat) :
    0 ≤ labelDelta prev cur ∧ labelDelta prev cur ≤ 1 := by
  unfold labelDelta
  rcases Nat.eq_zero_or_pos prev.length with h0 | hpos
  · simp [h0]
  · constructor
    · positivity
    · rw [div_le_one (by exact_mod_cast hpos)]
      have hc : (prev.zip cur).countP (fun p => p.1 != p.2) ≤ prev.length := by
        calc (prev.zip cur).countP (fun p => p.1 != p.2)
            ≤ (prev.zip cur).length := List.countP_le_length _
        _ ≤ prev.length := by rw [List.length_zip]; omega
      exact_mod_cast hc

lemma converged_terminal (tol : ℚ) (s : Ctrl) (updates : List (List Nat))
    (h : s.phase = Phase.converged) :
    (runUpdates tol s updates).phase = Phase.converged ∧
    runUpdates tol s updates = s := by
  induction updates generalizing s with
  | nil => exact ⟨h, rfl⟩
  | cons u us ih =>
    have hstep : targetUpdate tol u s = s := by
      unfold targetUpdate
      rw [h]
    rw [runUpdates, List.foldl_cons, hstep]
    exact ih s h

/-- C3: the label-assignment delta always lies in `[0, 1]`; and whenever,
at a target-update boundary reached from a non-terminal phase, the delta is
below the configured tolerance (in particular a delta of `0` with a positive
tolerance), the controller transitions to `CONVERGED`, saves the final
weights, stops even when the epoch budget is not exhausted, and no later
target update ever returns it to `ACCUMULATING_GRADIENT`. -/
theorem controller_convergence_terminal (tol : ℚ) (s : Ctrl) (cur : List Nat)
    (hphase : s.phase = Phase.awaitingTarget ∨ s.phase = Phase.accumulatingGradient)
    (hdelta : labelDelta s.prevLabels cur < tol) :
    (0 ≤ labelDelta s.prevLabels cur ∧ labelDelta s.prevLabels cur ≤ 1) ∧
    (targetUpdate tol cur s).phase = Phase.converged ∧
    (targetUpdate tol cur s).finalSaved = true ∧
    (∀ budget : Nat, shouldStop budget (targetUpdate tol cur s) = true) ∧
    (∀ future : List (List Nat),
      (runUpdates tol (targetUpdate tol cur s) future).phase ≠
        Phase.accumulatingGradient) := by
  have hstep : targetUpdate tol cur s =
      { s with phase := Phase.converged, finalSaved := true, prevLabels := cur } := by
    unfold targetUpdate
    rcases hphase with h | h <;> rw [h] <;> simp [hdelta]
  refine ⟨labelDelta_mem_unitInterval _ _, ?_, ?_, ?_, ?_⟩
  · rw [hstep]
  · rw [hstep]
  · intro budget
    rw [hstep]
    simp [shouldStop]
  · intro future
    have := converged_terminal tol (targetUpdate tol cur s) future (by rw [hstep])
    rw [this.1]
    intro hcontra
    cases hcontra

/-- C3 witness: a controller in `ACCUMULATING_GRADIENT` at epoch `3` of a
budget of `100`, whose labels did not change at the update boundary
(delta `= 0 <` tolerance `= 1/500`), converges, saves weights, and stays
converged through two further updates. -/
theorem controller_convergence_terminal_witness :
    ((⟨Phase.accumulatingGradient, 3, false, [0, 1, 2]⟩ : Ctrl).phase =
        Phase.awaitingTarget ∨
      (⟨Phase.accumulatingGradient, 3, false, [0, 1, 2]⟩ : Ctrl).phase =
        Phase.accumulatingGradient) ∧
    labelDelta [0, 1, 2] [0, 1, 2] < 1/500 ∧
    (targetUpdate (1/500) [0, 1, 2]
        ⟨Phase.accumulatingGradient, 3, false, [0, 1, 2]⟩).phase =
      Phase.converged ∧
    (runUpdates (1/500) (targetUpdate (1/500) [0, 1, 2]
        ⟨Phase.accumulatingGradient, 3, false, [0, 1, 2]⟩)
      [[1, 1, 1], [2, 2, 2]]).phase ≠ Phase.accumulatingGradient := by
  have hd : labelDelta [0, 1, 2] [0, 1, 2] < 1/500 := by
    norm_num [labelDelta, List.zip, List.countP, List.countP.go]
  have h := controller_convergence_terminal (1/500)
    ⟨Phase.accumulatingGradient, 3, false, [0, 1, 2]⟩ [0, 1, 2]
    (Or.inr rfl) hd
  exact ⟨Or.inr rfl, hd, h.2.1, h.2.2.2.2 [[1, 1, 1], [2, 2, 2]]⟩

/-! ## Target-distribution provenance (claim C4) -/

/-- Modelled from the spec: the provenance of the target distribution `P`
currently in use — the batch index at which its `Q` snapshot was taken and
the sample indices the snapshot's forward pass covered. -/
structure TargetInfo where
  snapStep : Nat
  indices : List Nat
deriving DecidableEq

/-- Modelled from the spec: the target distribution in use while processing
batch `t` of the fine-tuning phase.  On entry (batch `0`) and at every batch
index divisible by `update_interval`, `P` is recomputed from a forward pass
over the entire training split; otherwise the previous target is kept. -/
def targetAt (interval : Nat) (split : List Nat) : Nat → TargetInfo
  | 0 => ⟨0, split⟩
  | t + 1 =>
    if (t + 1) % interval = 0 then ⟨t + 1, split⟩
    else targetAt interval split t

/-- C4: at every batch `t` of fine-tuning, the target distribution in use
was computed from a forward pass over the entire training split (never a
single mini-batch), its snapshot was taken at the most recent update
boundary `interval * (t / interval)`, and it is strictly less than one
update interval old. -/
theorem targetAt_freshness (interval : Nat) (split : List Nat)
    (hI : 0 < interval) (t : Nat) :
    (targetAt interval split t).indices = split ∧
    (targetAt interval split t).snapStep = interval * (t / interval) ∧
    (targetAt interval split t).snapStep ≤ t ∧
    t - (targetAt interval split t).snapStep < interval ∧
    (targetAt interval split t).snapStep % interval = 0 := by
  induction t with
  | zero =>
    refine ⟨rfl, by simp [targetAt], by simp [targetAt], by simpa [targetAt], by simp [targetAt]⟩
  | succ t ih =>
    by_cases hdvd : (t + 1) % interval = 0
    · have hsnap : targetAt interval split (t + 1) = ⟨t + 1, split⟩ := by
        rw [targetAt, if_pos hdvd]
      have hdiv : interval * ((t + 1) / interval) = t + 1 :=
        Nat.mul_div_cancel' (Nat.dvd_iff_mod_eq_zero.mpr hdvd)
      rw [hsnap]
      refine ⟨rfl, hdiv.symm, Nat.le_refl _, ?_, hdvd⟩
      show t + 1 - (t + 1) < interval
      omega
    · have hsnap : targetAt interval split (t + 1) = targetAt interval split t := by
        rw [targetAt, if_neg hdvd]
      obtain ⟨hi, hb, hle, hfresh, hmod⟩ := ih
      have hsucc : (t + 1) / interval = t / interval := by
        rw [Nat.succ_div]
        have hnd : ¬ interval ∣ t + 1 := fun hc =>
          hdvd (Nat.dvd_iff_mod_eq_zero.mp hc)
        simp [hnd]
      have ht : interval * (t / interval) + t % interval = t :=
        Nat.div_add_mod t interval
      have hmodt : t % interval < interval := Nat.mod_lt _ hI
      have hne : t % interval + 1 ≠ interval := by
        intro hc
        apply hdvd
        have h2 : t + 1 = interval * (t / interval + 1) := by
          rw [Nat.mul_add, Nat.mul_one]
          omega
        rw [h2, Nat.mul_mod_right]
      rw [hsnap]
      refine ⟨hi, by rw [hb, hsucc], by omega, by omega, hmod⟩

/-- C4 witness: with `update_interval = 3` and training split `[0, 1, 2, 3]`,
the target in use at batch `7` was snapshotted over the full split at the
boundary batch `6`, one batch earlier. -/
theorem targetAt_freshness_witness :
    0 < 3 ∧
    (targetAt 3 [0, 1, 2, 3] 7).indices = [0, 1, 2, 3] ∧
    (targetAt 3 [0, 1, 2, 3] 7).snapStep = 6 := by
  have h := targetAt_freshness 3 [0, 1, 2, 3] (by decide) 7
  exact ⟨by decide, h.1, by rw [h.2.1]⟩

/-! ## Target-update interval sentinel (claim C5) -/

/-- Modelled from the spec: the effective number of mini-batches between
target recomputations.  The notebook configures `update_interval = -1`; a
negative sentinel means "recompute once per epoch" (the interval becomes the
number of batches in one epoch), while a positive value is an explicit batch
count. -/
def effectiveInterval (update_interval : Int) (batchesPerEpoch : Nat) : Nat :=
  if update_interval < 0 then batchesPerEpoch else update_interval.toNat

/-- Modelled from the spec: whether a target recomputation happens at batch
index `b` of the fine-tuning run. -/
def recomputesAt (update_interval : Int) (batchesPerEpoch : Nat) (b : Nat) : Bool :=
  b % effectiveInterval update_interval batchesPerEpoch == 0

/-- C5: the interval accepts two distinct semantics — with the negative
sentinel (such as the notebook's `update_interval = -1`) recomputation
happens exactly at epoch boundaries (batch indices that are multiples of the
per-epoch batch count), and only there; with a positive value it happens
exactly every that many mini-batches. -/
theorem updateInterval_sentinel_semantics (ui : Int) (bpe : Nat) (b : Nat)
    (hbpe : 0 < bpe) :
    (ui < 0 →
      (recomputesAt ui bpe b = true ↔ ∃ e : Nat, b = bpe * e)) ∧
    (0 < ui →
      (recomputesAt ui bpe b = true ↔ ∃ m : Nat, b = ui.toNat * m)) := by
  constructor
  · intro hneg
    unfold recomputesAt effectiveInterval
    rw [if_pos hneg]
    simp only [beq_iff_eq]
    rw [← Nat.dvd_iff_mod_eq_zero]
    exact ⟨fun ⟨e, he⟩ => ⟨e, he⟩, fun ⟨e, he⟩ => ⟨e, he⟩⟩
  · intro hpos
    unfold recomputesAt effectiveInterval
    rw [if_neg (by omega)]
    simp only [beq_iff_eq]
    rw [← Nat.dvd_iff_mod_eq_zero]
    exact ⟨fun ⟨m, hm⟩ => ⟨m, hm⟩, fun ⟨m, hm⟩ => ⟨m, hm⟩⟩

/-- C5 witness: with the notebook's sentinel `update_interval = -1` and
`10` batches per epoch, batch `20` (an epoch boundary) triggers a
recomputation and batch `13` does not. -/
theorem updateInterval_sentinel_semantics_witness :
    0 < 10 ∧
    recomputesAt (-1) 10 20 = true ∧ recomputesAt (-1) 10 13 = false := by
  refine ⟨by decide, ?_, by decide⟩
  exact ((updateInterval_sentinel_semantics (-1) 10 20 (by decide)).1
    (by decide)).mpr ⟨2, by decide⟩

/-! ## Batched inference over the full store (claim C6) -/

/-- Modelled from the spec: splitting the sample-store index sequence into
consecutive fixed-size batches, as the inference data loader does. -/
def chunkList (B : Nat) : List Nat → List (List Nat)
  | [] => []
  | x :: xs =>
    if h : B = 0 then []
    else (x :: xs).take B :: chunkList B ((x :: xs).drop B)
termination_by l => l.length
decreasing_by
  simp only [List.length_drop, List.length_cons]
  omega

/-- Modelled from the spec: the index of the first maximal entry of a soft
assignment row — the predicted cluster label. -/
def argmaxIdx (l : List ℚ) : Nat :=
  (List.range l.length).foldl
    (fun best k => if l.getD best 0 < l.getD k 0 then k else best) 0

/-- Modelled from the spec: a no-gradient inference pass over the whole
sample store of `N` samples in batches of size `B`, producing one
`(sample index, predicted label)` row per sample, where `q i` is the model's
soft-assignment row for sample `i` (the `RISCluster.models.predict`
implementation is not in the repository snapshot). -/
def inferAll (B N : Nat) (q : Nat → List ℚ) : List (Nat × Nat) :=
  ((chunkList B (List.range N)).map
    (fun batch => batch.map (fun i => (i, argmaxIdx (q i))))).flatten

lemma chunkList_flatten_aux (B : Nat) (hB : 0 < B) :
    ∀ (n : Nat) (l : List Nat), l.length ≤ n → (chunkList B l).flatten = l := by
  intro n
  induction n with
  | zero =>
    intro l hl
    have : l = [] := List.length_eq_zero.mp (by omega)
    rw [this]
    simp [chunkList]
  | succ n ih =>
    intro l hl
    cases l with
    | nil => simp [chunkList]
    | cons x xs =>
      rw [chunkList, dif_neg (by omega), List.flatten_cons]
      have hlen : ((x :: xs).drop B).length ≤ n := by
        simp only [List.length_drop, List.length_cons]
        simp only [List.length_cons] at hl
        omega
      rw [ih _ hlen, List.take_append_drop]

lemma chunkList_flatten (B : Nat) (hB : 0 < B) (l : List Nat) :
    (chunkList B l).flatten = l :=
  chunkList_flatten_aux B hB l.length l (Nat.le_refl _)

lemma foldl_argmax_lt (l : List ℚ) (n : Nat) :
    ∀ (ks : List Nat) (b : Nat), b < n → (∀ k ∈ ks, k < n) →
      ks.foldl (fun best k => if l.getD best 0 < l.getD k 0 then k else best) b < n := by
  intro ks
  induction ks with
  | nil => intro b hb _; simpa using hb
  | cons k ks ih =>
    intro b hb hks
    rw [List.foldl_cons]
    by_cases hlt : l.getD b 0 < l.getD k 0
    · rw [if_pos hlt]
      exact ih k (hks k (List.mem_cons_self k ks))
        (fun k' hk' => hks k' (List.mem_cons_of_mem k hk'))
    · rw [if_neg hlt]
      exact ih b hb (fun k' hk' => hks k' (List.mem_cons_of_mem k hk'))

lemma argmaxIdx_lt (l : List ℚ) (hl : 0 < l.length) : argmaxIdx l < l.length :=
  foldl_argmax_lt l l.length (List.range l.length) 0 hl
    (fun k hk => List.mem_range.mp hk)

/-- C6: an inference pass over a store of `N` samples, in batches of any
positive size `B`, with a model producing a length-`K` soft assignment
(`K ≥ 1`) for every sample, yields a results table with exactly `N` rows
whose index column is exactly the store's index sequence `0, …, N−1` (each
original index appears exactly once, joinable to the source catalogue) and
every predicted label lies in `[0, K)`. -/
theorem inferAll_results_table (B N K : Nat) (q : Nat → List ℚ)
    (hB : 0 < B) (hK : 0 < K) (hq : ∀ i, (q i).length = K) :
    (inferAll B N q).length = N ∧
    (inferAll B N q).map Prod.fst = List.range N ∧
    (∀ r ∈ inferAll B N q, r.2 < K) := by
  have hfst : (inferAll B N q).map Prod.fst = List.range N := by
    unfold inferAll
    rw [List.map_flatten, List.map_map]
    have hcomp : (List.map (Prod.fst (α := Nat) (β := Nat)) ∘
        fun batch : List Nat => batch.map (fun i => (i, argmaxIdx (q i)))) = id := by
      funext batch
      simp [Function.comp_def]
    rw [hcomp, List.map_id]
    exact chunkList_flatten B hB (List.range N)
  refine ⟨?_, hfst, ?_⟩
  · have := congrArg List.length hfst
    simpa using this
  · intro r hr
    unfold inferAll at hr
    rcases List.mem_flatten.mp hr with ⟨rows, hrows, hrmem⟩
    rcases List.mem_map.mp hrows with ⟨batch, _, rfl⟩
    rcases List.mem_map.mp hrmem with ⟨i, _, rfl⟩
    have := argmaxIdx_lt (q i) (by rw [hq i]; omega)
    rw [hq i] at this
    exact this

/-- C6 witness: a `7`-sample store processed in batches of `3` by a
`2`-cluster model yields exactly `7` rows, indices `0…6` in order, labels
below `2`. -/
theorem inferAll_results_table_witness :
    (inferAll 3 7 (fun i => if i % 2 = 0 then [1, 0] else [0, 1])).length = 7 ∧
    (inferAll 3 7 (fun i => if i % 2 = 0 then [1, 0] else [0, 1])).map Prod.fst =
      List.range 7 := by
  have h := inferAll_results_table 3 7 2
    (fun i => if i % 2 = 0 then [1, 0] else [0, 1])
    (by decide) (by decide)
    (fun i => by by_cases hi : i % 2 = 0 <;> simp [hi])
  exact ⟨h.1, h.2.1⟩

/-! ## Hyperparameter grid sweep and divergence isolation (claim C7) -/

/-- Modelled from the spec: the outcome of one hyperparameter run — either
its training history, or a `DivergenceError` (non-finite loss) aborting that
run. -/
def RunOutcome := Except String (List ℚ)

/-- Modelled from the spec: cartesian expansion of list-valued
hyperparameters (the notebook requests `3` batch sizes × `3` learning
rates); one independent run per combination. -/
def expandGrid (batchSizes lrs : List ℚ) : List (ℚ × ℚ) :=
  batchSizes.flatMap (fun b => lrs.map (fun r => (b, r)))

/-- Modelled from the spec: a sweep executes every expanded combination
independently, pairing each combination (which also keys its own checkpoint
directory) with the outcome of its own run; a run's divergence is caught
per-run and recorded in its own entry only. -/
def runSweep (exec : ℚ × ℚ → RunOutcome) (grid : List (ℚ × ℚ)) :
    List ((ℚ × ℚ) × RunOutcome) :=
  grid.map (fun c => (c, exec c))

lemma expandGrid_length (bs lrs : List ℚ) :
    (expandGrid bs lrs).length = bs.length * lrs.length := by
  unfold expandGrid
  induction bs with
  | nil => simp
  | cons b t ih =>
    simp only [List.flatMap_cons, List.length_append, List.length_map, ih,
      List.length_cons]
    ring

lemma expandGrid_mem (bs lrs : List ℚ) (c : ℚ × ℚ) :
    c ∈ expandGrid bs lrs ↔ c.1 ∈ bs ∧ c.2 ∈ lrs := by
  unfold expandGrid
  constructor
  · intro hc
    rcases List.mem_flatMap.mp hc with ⟨b, hb, hc⟩
    rcases List.mem_map.mp hc with ⟨r, hr, rfl⟩
    exact ⟨hb, hr⟩
  · intro ⟨h1, h2⟩
    exact List.mem_flatMap.mpr ⟨c.1, h1,
      List.mem_map.mpr ⟨c.2, h2, by rw [Prod.mk.eta]⟩⟩

lemma expandGrid_nodup (bs lrs : List ℚ) (hbs : bs.Nodup) (hlrs : lrs.Nodup) :
    (expandGrid bs lrs).Nodup := by
  unfold expandGrid
  induction bs with
  | nil => simp
  | cons b t ih =>
    rcases List.nodup_cons.mp hbs with ⟨hbt, ht⟩
    simp only [List.flatMap_cons]
    apply List.Nodup.append
    · exact List.Nodup.map (fun x y hxy => congrArg Prod.snd hxy) hlrs
    · exact ih ht
    · intro p hp hp'
      rcases List.mem_map.mp hp with ⟨r, _, rfl⟩
      have := (expandGrid_mem t lrs (b, r)).mp hp'
      exact hbt this.1

/-- C7: list-valued hyperparameters expand to exactly one run per cartesian
combination; with duplicate-free hyperparameter lists the combinations (and
hence their checkpoint directories, keyed by combination) are pairwise
distinct; every combination's sweep entry carries exactly its own run's
outcome; and replacing one run's outcome by a `DivergenceError` leaves every
sibling entry of the sweep unchanged. -/
theorem sweep_expansion_and_divergence_isolation
    (bs lrs : List ℚ) (hbs : bs.Nodup) (hlrs : lrs.Nodup)
    (exec exec' : ℚ × ℚ → RunOutcome) (bad : ℚ × ℚ)
    (hagree : ∀ c, c ≠ bad → exec' c = exec c) :
    (expandGrid bs lrs).length = bs.length * lrs.length ∧
    (expandGrid bs lrs).Nodup ∧
    (∀ c ∈ expandGrid bs lrs, (c, exec c) ∈ runSweep exec (expandGrid bs lrs)) ∧
    (runSweep exec' (expandGrid bs lrs)).length =
      (expandGrid bs lrs).length ∧
    (∀ c ∈ expandGrid bs lrs, c ≠ bad →
      (c, exec c) ∈ runSweep exec' (expandGrid bs lrs)) := by
  refine ⟨expandGrid_length bs lrs, expandGrid_nodup bs lrs hbs hlrs, ?_, ?_, ?_⟩
  · intro c hc
    exact List.mem_map.mpr ⟨c, hc, rfl⟩
  · unfold runSweep
    simp
  · intro c hc hne
    have : (c, exec' c) ∈ runSweep exec' (expandGrid bs lrs) :=
      List.mem_map.mpr ⟨c, hc, rfl⟩
    rw [hagree c hne] at this
    exact this

/-- C7 witness: a `2 × 2` sweep in which the run at `(512, 1/10)` diverges —
the grid has `4` distinct entries and each of the `3` sibling runs still
appears in the sweep with its own normal outcome. -/
theorem sweep_expansion_and_divergence_isolation_witness :
    ([512, 1024] : List ℚ).Nodup ∧
    (expandGrid [512, 1024] [1/1000, 1/10]).length = 4 ∧
    ((512, 1/1000), Except.ok [1]) ∈
      runSweep
        (fun c => if c = ((512 : ℚ), (1/10 : ℚ)) then
            (Except.error "DivergenceError" : RunOutcome)
          else Except.ok [1])
        (expandGrid [512, 1024] [1/1000, 1/10]) := by
  have hbs : ([512, 1024] : List ℚ).Nodup := by norm_num
  have hlrs : ([1/1000, 1/10] : List ℚ).Nodup := by norm_num
  have h := sweep_expansion_and_divergence_isolation [512, 1024] [1/1000, 1/10]
    hbs hlrs
    (fun _ => (Except.ok [1] : RunOutcome))
    (fun c => if c = ((512 : ℚ), (1/10 : ℚ)) then
        (Except.error "DivergenceError" : RunOutcome)
      else Except.ok [1])
    ((512 : ℚ), (1/10 : ℚ))
    (fun c hc => by
      show (if c = ((512 : ℚ), (1/10 : ℚ)) then
          (Except.error "DivergenceError" : RunOutcome)
        else Except.ok [1]) = Except.ok [1]
      rw [if_neg hc])
  refine ⟨hbs, by rw [h.1]; norm_num, ?_⟩
  have hmem : ((512 : ℚ), (1/1000 : ℚ)) ∈ expandGrid [512, 1024] [1/1000, 1/10] := by
    rw [expandGrid_mem]
    constructor
    · exact List.mem_cons_self _ _
    · exact List.mem_cons_self _ _
  exact h.2.2.2.2 ((512 : ℚ), (1/1000 : ℚ)) hmem (by norm_num [Prod.ext_iff])

/-! ## Centroid-set shape invariant (claim C8) -/

/-- Modelled from the spec: `model.clustering.weights` — the centroid set of
the DEC model's clustering layer, an ordered collection of latent-space
points (the `RISCluster.networks` layer itself is not in the repository
snapshot). -/
structure ClusteringLayer where
  weights : List (List ℚ)
deriving DecidableEq

/-- A matrix with exactly `K` rows, each of dimension `D`. -/
def wellShaped (K D : Nat) (m : List (List ℚ)) : Prop :=
  m.length = K ∧ ∀ row ∈ m, row.length = D

/-- Modelled from the spec: centroid initialization — the `K` cluster means
(each of latent dimension `D`) produced by the clustering heuristic (GMM or
k-means) over pretrained latents become the initial centroid set. -/
def initCentroids (K D : Nat) (mean : Nat → Nat → ℚ) : ClusteringLayer :=
  ⟨(List.range K).map (fun k => (List.range D).map (fun d => mean k d))⟩

/-- Modelled from the spec: one gradient-based fine-tuning update of the
centroid set — each centroid moves opposite its gradient, entrywise; the
gradient tensor produced by backpropagation has the same shape as the
weights. -/
def gradUpdate (lr : ℚ) (grad : List (List ℚ)) (c : ClusteringLayer) :
    ClusteringLayer :=
  ⟨(c.weights.zip grad).map
    (fun p => (p.1.zip p.2).map (fun e => e.1 - lr * e.2))⟩

/-- Modelled from the spec: a whole fine-tuning run — the centroid layer
after a sequence of gradient updates. -/
def runGradUpdates (lr : ℚ) (c : ClusteringLayer)
    (grads : List (List (List ℚ))) : ClusteringLayer :=
  grads.foldl (fun st g => gradUpdate lr g st) c

lemma wellShaped_gradUpdate (K D : Nat) (lr : ℚ) (c : ClusteringLayer)
    (g : List (List ℚ)) (hc : wellShaped K D c.weights)
    (hg : wellShaped K D g) :
    wellShaped K D (gradUpdate lr g c).weights := by
  obtain ⟨hcl, hcr⟩ := hc
  obtain ⟨hgl, hgr⟩ := hg
  constructor
  · simp [gradUpdate, List.length_zip, hcl, hgl]
  · intro row hrow
    rcases List.mem_map.mp hrow with ⟨p, hp, rfl⟩
    obtain ⟨a, b⟩ := p
    obtain ⟨ha, hb⟩ := List.of_mem_zip hp
    simp only [List.length_map, List.length_zip, hcr a ha, hgr b hb,
      Nat.min_self]

lemma runGradUpdates_wellShaped (K D : Nat) (lr : ℚ) (c : ClusteringLayer)
    (grads : List (List (List ℚ))) (hc : wellShaped K D c.weights)
    (hg : ∀ g ∈ grads, wellShaped K D g) :
    wellShaped K D (runGradUpdates lr c grads).weights := by
  induction grads generalizing c with
  | nil => exact hc
  | cons g gs ih =>
    rw [runGradUpdates, List.foldl_cons]
    exact ih _ (wellShaped_gradUpdate K D lr c g hc
        (hg g (List.mem_cons_self g gs)))
      (fun g' hg' => hg g' (List.mem_cons_of_mem g hg'))

/-- C8: the centroid set produced by initialization has exactly `K`
centroids of dimension `D`, and after every prefix of a fine-tuning run's
gradient updates (whose gradients, produced by backpropagation, share the
weights' shape) it still has exactly `K` centroids of dimension `D` — no
update changes the number of centroids or their dimension. -/
theorem centroids_shape_invariant (K D : Nat) (mean : Nat → Nat → ℚ) (lr : ℚ)
    (grads : List (List (List ℚ))) (hg : ∀ g ∈ grads, wellShaped K D g) :
    wellShaped K D (initCentroids K D mean).weights ∧
    (∀ n : Nat, wellShaped K D
      (runGradUpdates lr (initCentroids K D mean) (grads.take n)).weights) := by
  have hinit : wellShaped K D (initCentroids K D mean).weights := by
    constructor
    · simp [initCentroids]
    · intro row hrow
      rcases List.mem_map.mp hrow with ⟨k, _, rfl⟩
      simp
  refine ⟨hinit, fun n => ?_⟩
  exact runGradUpdates_wellShaped K D lr _ _ hinit
    (fun g hgmem => hg g (List.take_subset n grads hgmem))

/-- C8 witness: a `2`-centroid, `3`-dimensional model initialized from
concrete means and updated once with a well-shaped gradient keeps exactly
`2` centroids of dimension `3`. -/
theorem centroids_shape_invariant_witness :
    (∀ g ∈ ([[[1, 0, 0], [0, 1, 0]]] : List (List (List ℚ))),
      wellShaped 2 3 g) ∧
    wellShaped 2 3
      (runGradUpdates (1/2)
        (initCentroids 2 3 (fun k d => (k : ℚ) + d))
        (([[[1, 0, 0], [0, 1, 0]]] : List (List (List ℚ))).take 1)).weights := by
  have hg : ∀ g ∈ ([[[1, 0, 0], [0, 1, 0]]] : List (List (List ℚ))),
      wellShaped 2 3 g := by
    intro g hgmem
    rcases List.mem_cons.mp hgmem with rfl | h
    · exact ⟨by simp, by
        intro row hrow
        rcases List.mem_cons.mp hrow with rfl | hrow'
        · simp
        · rcases List.mem_cons.mp hrow' with rfl | h'
          · simp
          · cases h'⟩
    · cases h
  exact ⟨hg, (centroids_shape_invariant 2 3 (fun k d => (k : ℚ) + d) (1/2)
    [[[1, 0, 0], [0, 1, 0]]] hg).2 1⟩

/-! ## Best-effort progress notification (claim C9) -/

/-- Modelled from the spec: the result of one attempt on the best-effort
progress-notification side channel enabled by `send_message` — it may
succeed or fail. -/
def NotifyResult := Except String Unit

/-- Modelled from the spec: the observable outcome of a training run — its
loss history and whether the final weights were saved.  There is no error
channel for the notification side effect. -/
structure TrainOutcome where
  lossHistory : List ℚ
  finalSaved : Bool
deriving DecidableEq

/-- Modelled from the spec: one training epoch — the epoch's loss is
appended to the history, then the progress notification is fired and any
failure of the side channel is swallowed silently (both branches continue
identically). -/
def epochWithNotify (loss : ℚ) (notify : NotifyResult) (hist : List ℚ) :
    List ℚ :=
  match notify with
  | Except.ok _ => hist ++ [loss]
  | Except.error _ => hist ++ [loss]

/-- Modelled from the spec: the loss history after `n` epochs, where epoch
`e` produces loss `losses e` and its notification attempt results in
`notifies e`. -/
def runEpochs (losses : Nat → ℚ) (notifies : Nat → NotifyResult) :
    Nat → List ℚ
  | 0 => []
  | n + 1 => epochWithNotify (losses n) (notifies n)
      (runEpochs losses notifies n)

/-- Modelled from the spec: a whole training run — the loop over the epoch
budget followed by the final weight save. -/
def trainRun (losses : Nat → ℚ) (notifies : Nat → NotifyResult) (n : Nat) :
    TrainOutcome :=
  ⟨runEpochs losses notifies n, true⟩

lemma epochWithNotify_eq (loss : ℚ) (notify : NotifyResult) (hist : List ℚ) :
    epochWithNotify loss notify hist = hist ++ [loss] := by
  cases notify <;> rfl

/-- C9: training never raises through the notification channel (its outcome
type has no such error channel), the outcome is identical for any two
sequences of notification results — in particular when every notification
attempt fails — and the run always completes with its full loss history and
its final weights saved. -/
theorem notification_failures_never_alter_training
    (losses : Nat → ℚ) (notifies notifies' : Nat → NotifyResult) (n : Nat) :
    trainRun losses notifies n = trainRun losses notifies' n ∧
    (trainRun losses notifies n).lossHistory = (List.range n).map losses ∧
    (trainRun losses notifies n).finalSaved = true := by
  have hrun : ∀ m : Nat, runEpochs losses notifies m = (List.range m).map losses ∧
      runEpochs losses notifies' m = (List.range m).map losses := by
    intro m
    induction m with
    | zero => exact ⟨rfl, rfl⟩
    | succ m ih =>
      rw [runEpochs, runEpochs, epochWithNotify_eq, epochWithNotify_eq,
        ih.1, ih.2, List.range_succ, List.map_append]
      exact ⟨rfl, rfl⟩
  refine ⟨?_, (hrun n).1, rfl⟩
  unfold trainRun
  rw [(hrun n).1, (hrun n).2]

/-! ## Optimal-cluster-count sweep bounds (claim C10)

The notebook's Appendix A parses the candidate-cluster-count range itself:
`klist = np.arange(int(klist.split(',')[0]), int(klist.split(',')[1])+1)`
with `klist = '2, 20'`.  This is embedded below over character lists
(Python's `str.split(',')` and whitespace-tolerant `int(...)`), followed by
`np.arange` over integers. -/

/-- Embedding of Python's `str.split(',')` over the string's characters. -/
def splitOnComma : List Char → List (List Char)
  | [] => [[]]
  | c :: cs =>
    if c = ',' then [] :: splitOnComma cs
    else
      match splitOnComma cs with
      | [] => [[c]]
      | p :: ps => (c :: p) :: ps

/-- Embedding of the whitespace stripping Python's `int(...)` performs on
its argument (spaces suffice for the notebook's `'a, b'` form). -/
def stripSpaces (l : List Char) : List Char :=
  ((l.dropWhile (fun c => c = ' ')).reverse.dropWhile (fun c => c = ' ')).reverse

/-- Value of a string of decimal digits. -/
def digitsToNat (l : List Char) : Nat :=
  l.foldl (fun acc c => 10 * acc + (c.toNat - '0'.toNat)) 0

/-- Embedding of Python's `int(...)` on a (possibly signed, possibly
space-padded) decimal string. -/
def pyInt (l : List Char) : Int :=
  match stripSpaces l with
  | '-' :: rest => -(digitsToNat rest : Int)
  | s => (digitsToNat s : Int)

/-- Embedding of `int(klist.split(',')[0])` and `int(klist.split(',')[1])`
from the notebook's Appendix A. -/
def klistBounds (klist : List Char) : Int × Int :=
  (pyInt ((splitOnComma klist).getD 0 []),
   pyInt ((splitOnComma klist).getD 1 []))

/-- Embedding of `np.arange(a, b)`: the integers from `a` up to but
excluding `b`. -/
def npArange (a b : Int) : List Int :=
  (List.range (b - a).toNat).map (fun i : Nat => a + (i : Int))

/-- Embedding of the notebook's
`np.arange(int(klist.split(',')[0]), int(klist.split(',')[1])+1)`. -/
def klistSweep (klist : List Char) : List Int :=
  npArange (klistBounds klist).1 ((klistBounds klist).2 + 1)

lemma mem_npArange (a b k : Int) : k ∈ npArange a b ↔ a ≤ k ∧ k < b := by
  unfold npArange
  rw [List.mem_map]
  constructor
  · rintro ⟨i, hi, rfl⟩
    rw [List.mem_range] at hi
    omega
  · rintro ⟨h1, h2⟩
    exact ⟨(k - a).toNat, List.mem_range.mpr (by omega), by omega⟩

/-- C10: for every klist string parsing to bounds `(a, b)` with `a ≤ b`, the
set of candidate cluster counts swept by the k-means metrics computation is
exactly the integers from `a` to `b` inclusive of both endpoints: the sweep
is non-empty, contains `b` itself, and has exactly `b − a + 1` entries. -/
theorem klistSweep_inclusive_range (s : List Char) (a b : Int)
    (hparse : klistBounds s = (a, b)) (hab : a ≤ b) :
    klistSweep s ≠ [] ∧
    b ∈ klistSweep s ∧
    (∀ k : Int, k ∈ klistSweep s ↔ a ≤ k ∧ k ≤ b) ∧
    (klistSweep s).length = (b + 1 - a).toNat := by
  have hsweep : klistSweep s = npArange a (b + 1) := by
    unfold klistSweep
    rw [hparse]
  have hmem : ∀ k : Int, k ∈ klistSweep s ↔ a ≤ k ∧ k ≤ b := by
    intro k
    rw [hsweep, mem_npArange]
    omega
  have hlen : (klistSweep s).length = (b + 1 - a).toNat := by
    rw [hsweep]
    unfold npArange
    simp
  refine ⟨?_, (hmem b).mpr ⟨hab, le_refl b⟩, hmem, hlen⟩
  intro hnil
  have := congrArg List.length hnil
  rw [hlen] at this
  simp at this
  omega

/-- C10 witness: the notebook's `klist = '2, 20'` parses to bounds
`(2, 20)` and sweeps exactly the `19` candidate counts `2, …, 20`,
including the upper bound `20`. -/
theorem klistSweep_inclusive_range_witness :
    klistBounds ['2', ',', ' ', '2', '0'] = (2, 20) ∧
    (20 : Int) ∈ klistSweep ['2', ',', ' ', '2', '0'] ∧
    (klistSweep ['2', ',', ' ', '2', '0']).length = 19 := by
  have hparse : klistBounds ['2', ',', ' ', '2', '0'] = (2, 20) := by decide
  have h := klistSweep_inclusive_range ['2', ',', ' ', '2', '0'] 2 20 hparse
    (by decide)
  exact ⟨hparse, h.2.1, by rw [h.2.2.2]; decide⟩

end RISWorkflow
